import Mathlib

/-!
Shallow embedding of the session selection and bulk-operation controller of
the hapi web client, together with proofs about its specified behaviour.

Sources embedded here:
- src/web/src/components/SessionList.tsx
  (selectionReducer, groupSessionsByDirectory, getGroupDisplayName,
   handleConfirmBulkDelete, the selectable-id reconciliation effect)
- src/web/src/hooks/mutations/useSessionActions.ts
  (useSessionActions.setPermissionMode, useBulkSessionActions.deleteSessions)

TypeScript `Set<string>` values are modelled as `Finset String` (the spec
declares selection order irrelevant), numeric timestamps as `Int`, promises
returning `T` or throwing as `Except`-valued functions, and the concurrency
of `Promise.allSettled` via an explicit completion-order parameter.
-/

namespace Hapi

/-! ### Selection state machine (SessionList.tsx lines 14-56) -/

/-- State held by the selection reducer: `selectionMode` plus the set of
selected session ids. -/
structure SelectionState where
  selectionMode : Bool
  selectedIds : Finset String
deriving DecidableEq

/-- The six selection actions of the reducer. -/
inductive SelectionAction where
  | enterSelectionMode
  | exitSelectionMode
  | toggleSession (sessionId : String)
  | selectAll (sessionIds : List String)
  | setSelection (sessionIds : List String)
  | clearSelection

/-- Embedding of `selectionReducer` (SessionList.tsx lines 28-56).
`new Set(action.sessionIds)` deduplicates, hence `List.toFinset`. -/
def selectionReducer (state : SelectionState) (action : SelectionAction) : SelectionState :=
  match action with
  | .enterSelectionMode => { state with selectionMode := true }
  | .exitSelectionMode => { selectionMode := false, selectedIds := ∅ }
  | .toggleSession sessionId =>
      if sessionId ∈ state.selectedIds then
        { state with selectedIds := state.selectedIds.erase sessionId }
      else
        { state with selectedIds := insert sessionId state.selectedIds }
  | .selectAll sessionIds => { state with selectedIds := sessionIds.toFinset }
  | .setSelection sessionIds => { state with selectedIds := sessionIds.toFinset }
  | .clearSelection => { state with selectedIds := ∅ }

/-- The reducer's initial state (SessionList.tsx lines 467-470). -/
def initialSelectionState : SelectionState :=
  { selectionMode := false, selectedIds := ∅ }

/-- Running a sequence of actions through the reducer from the initial state. -/
def runActions (actions : List SelectionAction) : SelectionState :=
  actions.foldl selectionReducer initialSelectionState

/-- States reachable from the initial state when the set-modifying actions
(toggle, select-all, set-selection) are dispatched only while selection mode
is active, which is how every call site in `SessionList` gates them. -/
inductive GatedReachable : SelectionState → Prop where
  | init : GatedReachable initialSelectionState
  | enter {s : SelectionState} :
      GatedReachable s → GatedReachable (selectionReducer s .enterSelectionMode)
  | exit {s : SelectionState} :
      GatedReachable s → GatedReachable (selectionReducer s .exitSelectionMode)
  | clear {s : SelectionState} :
      GatedReachable s → GatedReachable (selectionReducer s .clearSelection)
  | toggle {s : SelectionState} (sessionId : String) :
      GatedReachable s → s.selectionMode = true →
      GatedReachable (selectionReducer s (.toggleSession sessionId))
  | selAll {s : SelectionState} (sessionIds : List String) :
      GatedReachable s → s.selectionMode = true →
      GatedReachable (selectionReducer s (.selectAll sessionIds))
  | setSel {s : SelectionState} (sessionIds : List String) :
      GatedReachable s → s.selectionMode = true →
      GatedReachable (selectionReducer s (.setSelection sessionIds))

/-- C4 counterexample: the claim quantifies over arbitrary action sequences,
but `TOGGLE_SESSION` carries no selection-mode guard inside the reducer, so
the single-action sequence `[ToggleSession "a"]` reaches a state with
`selectionMode = false` and a nonempty selected set. -/
theorem selection_invariant_counterexample :
    (runActions [SelectionAction.toggleSession "a"]).selectionMode = false
    ∧ (runActions [SelectionAction.toggleSession "a"]).selectedIds ≠ ∅ := by
  constructor
  · rfl
  · intro h
    have : "a" ∈ (runActions [SelectionAction.toggleSession "a"]).selectedIds := by
      simp [runActions, initialSelectionState, selectionReducer]
    rw [h] at this
    exact absurd this (Finset.not_mem_empty _)

/-- C4 (amended): over action sequences in which Toggle/SelectAll/SetSelection
are dispatched only while selection mode is active — the gating every call
site applies — every reachable state with `selectionMode = false` has an empty
selected set; and `ExitSelectionMode` unconditionally produces the state with
`selectionMode = false` and an empty set. -/
theorem selection_invariant_gated :
    (∀ s : SelectionState, GatedReachable s → s.selectionMode = false → s.selectedIds = ∅)
    ∧ ∀ s : SelectionState,
        selectionReducer s .exitSelectionMode = { selectionMode := false, selectedIds := ∅ } := by
  constructor
  · intro s h
    induction h with
    | init => intro _; rfl
    | enter _ _ => intro hmode; simp [selectionReducer] at hmode
    | exit _ _ => intro _; rfl
    | clear _ _ => intro _; rfl
    | toggle sessionId _ hmode _ =>
        intro hmode'
        simp only [selectionReducer] at hmode'
        split at hmode' <;> simp_all
    | selAll sessionIds _ hmode _ =>
        intro hmode'
        simp only [selectionReducer] at hmode'
        simp_all
    | setSel sessionIds _ hmode _ =>
        intro hmode'
        simp only [selectionReducer] at hmode'
        simp_all
  · intro s; rfl

/-- Witness for the gated invariant: concrete applications of both parts. -/
theorem selection_invariant_gated_witness :
    initialSelectionState.selectedIds = ∅
    ∧ selectionReducer { selectionMode := true, selectedIds := {"a"} } .exitSelectionMode
        = { selectionMode := false, selectedIds := ∅ } :=
  ⟨selection_invariant_gated.1 initialSelectionState GatedReachable.init rfl,
   selection_invariant_gated.2 _⟩

/-- C5 counterexample: with `selectionMode = false`, `ToggleSession` is not a
no-op — it flips membership anyway, because the reducer case carries no mode
check (SessionList.tsx lines 34-42). -/
theorem toggleSession_not_noop_when_idle :
    initialSelectionState.selectionMode = false
    ∧ selectionReducer initialSelectionState (.toggleSession "a") ≠ initialSelectionState := by
  refine ⟨rfl, fun h => ?_⟩
  have hmem : "a" ∈ (selectionReducer initialSelectionState (.toggleSession "a")).selectedIds := by
    simp [initialSelectionState, selectionReducer]
  rw [h] at hmem
  exact absurd hmem (Finset.not_mem_empty _)

/-- C5 (amended): `ToggleSession(id)` flips the membership of `id` in
`selectedIds` regardless of `selectionMode`, and leaves the mode unchanged;
the restriction to the Selecting state lives at the call sites, not in the
reducer. -/
theorem toggleSession_flips_membership (s : SelectionState) (sessionId : String) :
    selectionReducer s (.toggleSession sessionId)
      = { s with
            selectedIds :=
              if sessionId ∈ s.selectedIds then s.selectedIds.erase sessionId
              else insert sessionId s.selectedIds } := by
  by_cases h : sessionId ∈ s.selectedIds <;> simp [selectionReducer, h]

/-! ### Session grouping engine (SessionList.tsx lines 58-108) -/

/-- The fields of `SessionSummary` that the grouping engine reads.
`worktreeBasePath` and `path` flatten `metadata?.worktree?.basePath` and
`metadata?.path`; an absent `metadata` makes both `none`. -/
structure Session where
  id : String
  active : Bool
  updatedAt : Int
  pendingRequestsCount : Nat
  worktreeBasePath : Option String
  path : Option String
deriving DecidableEq

/-- The grouping key: `session.metadata?.worktree?.basePath ?? session.metadata?.path ?? 'Other'`
(SessionList.tsx line 78). -/
def sessionKey (s : Session) : String :=
  match s.worktreeBasePath with
  | some p => p
  | none =>
    match s.path with
    | some p => p
    | none => "Other"

/-- Embedding of `getGroupDisplayName` (SessionList.tsx lines 66-72):
split on runs of slashes or backslashes, drop empty segments, and keep the
last two segments. -/
def getGroupDisplayName (directory : String) : String :=
  if directory = "Other" then directory
  else
    let parts := (directory.split fun c => c == '/' || c == '\\').filter fun p => p ≠ ""
    match parts.reverse with
    | [] => directory
    | [p] => p
    | last :: secondLast :: _ => secondLast ++ "/" ++ last

/-- The three-tier rank of the in-group comparator
(SessionList.tsx lines 88-89). -/
def sessionRank (s : Session) : Int :=
  if s.active then (if s.pendingRequestsCount > 0 then 0 else 1) else 2

/-- Boolean rendering of the in-group sort comparator (SessionList.tsx lines
87-92): `a` may come before `b` iff the comparator is nonpositive, i.e.
strictly smaller rank, or equal rank with `b.updatedAt - a.updatedAt ≤ 0`. -/
def sessionLe (a b : Session) : Bool :=
  if sessionRank a = sessionRank b then decide (b.updatedAt ≤ a.updatedAt)
  else decide (sessionRank a < sessionRank b)

/-- A session group as built by `groupSessionsByDirectory`.
`latestUpdatedAt` is `Option Int` with `none` standing for the JavaScript
`-Infinity` base of the `reduce` on line 93-96; it is `some` whenever the
group has at least one member. -/
structure SessionGroup where
  directory : String
  displayName : String
  sessions : List Session
  latestUpdatedAt : Option Int
  hasActiveSession : Bool
deriving DecidableEq

/-- One step of `groupSessions.reduce((max, s) => s.updatedAt > max ? s.updatedAt : max, -Infinity)`;
`none` is `-Infinity`, over which any `Int` wins the comparison. -/
def jsMaxUpdated (acc : Option Int) (s : Session) : Option Int :=
  match acc with
  | none => some s.updatedAt
  | some m => if s.updatedAt > m then some s.updatedAt else some m

/-- The `latestUpdatedAt` reduce of SessionList.tsx lines 93-96. -/
def latestUpdatedAtOf (sessions : List Session) : Option Int :=
  sessions.foldl jsMaxUpdated none

/-- Key-preserving insertion mirroring the `Map<string, SessionSummary[]>`
accumulation of SessionList.tsx lines 75-83: appends to the existing bucket,
or pushes a fresh `(key, [s])` entry at the end (JS `Map` preserves
first-insertion key order). -/
def addToGroups : List (String × List Session) → Session → List (String × List Session)
  | [], s => [(sessionKey s, [s])]
  | (k, ss) :: rest, s =>
      if k = sessionKey s then (k, ss ++ [s]) :: rest
      else (k, ss) :: addToGroups rest s

/-- The grouped-but-unsorted `Array.from(groups.entries())` of the source. -/
def groupPairs (sessions : List Session) : List (String × List Session) :=
  sessions.foldl addToGroups []

/-- The `.map` body of SessionList.tsx lines 86-101, building one group.
JavaScript `Array.prototype.sort` is stable; `List.mergeSort` with the
comparator-derived boolean order realises exactly that. -/
def mkGroup (entry : String × List Session) : SessionGroup :=
  { directory := entry.1
    displayName := getGroupDisplayName entry.1
    sessions := entry.2.mergeSort sessionLe
    latestUpdatedAt := latestUpdatedAtOf entry.2
    hasActiveSession := entry.2.any fun s => s.active }

/-- Order on `Option Int` with `none` as `-Infinity`. -/
def optIntLe (a b : Option Int) : Bool :=
  match a, b with
  | none, _ => true
  | some _, none => false
  | some x, some y => decide (x ≤ y)

/-- Boolean rendering of the top-level group comparator (SessionList.tsx
lines 102-107): groups with an active session first, then descending
`latestUpdatedAt`. -/
def groupLe (a b : SessionGroup) : Bool :=
  if a.hasActiveSession = b.hasActiveSession then optIntLe b.latestUpdatedAt a.latestUpdatedAt
  else a.hasActiveSession

/-- Embedding of `groupSessionsByDirectory` (SessionList.tsx lines 74-108). -/
def groupSessionsByDirectory (sessions : List Session) : List SessionGroup :=
  ((groupPairs sessions).map mkGroup).mergeSort groupLe

/-- The spec's in-group order: strictly smaller three-tier rank first, ties
broken by descending `updatedAt`. -/
def sessionOrdered (a b : Session) : Prop :=
  sessionRank a < sessionRank b ∨ (sessionRank a = sessionRank b ∧ b.updatedAt ≤ a.updatedAt)

/-- The spec's top-level group order: a group with an active session precedes
every group without one; within each partition, descending `latestUpdatedAt`. -/
def groupOrdered (a b : SessionGroup) : Prop :=
  (a.hasActiveSession = true ∧ b.hasActiveSession = false)
  ∨ (a.hasActiveSession = b.hasActiveSession
      ∧ optIntLe b.latestUpdatedAt a.latestUpdatedAt = true)

theorem sessionLe_trans (a b c : Session) (hab : sessionLe a b = true)
    (hbc : sessionLe b c = true) : sessionLe a c = true := by
  simp only [sessionLe] at *
  split_ifs at * <;> simp_all <;> omega

theorem sessionLe_total (a b : Session) : sessionLe a b || sessionLe b a := by
  simp only [sessionLe]
  split_ifs <;> simp_all
  all_goals omega

theorem sessionOrdered_of_le (a b : Session) (h : sessionLe a b = true) :
    sessionOrdered a b := by
  simp only [sessionLe] at h
  unfold sessionOrdered
  split_ifs at h <;> simp_all

theorem optIntLe_trans (a b c : Option Int) (hab : optIntLe a b = true)
    (hbc : optIntLe b c = true) : optIntLe a c = true := by
  cases a <;> cases b <;> cases c <;> simp_all [optIntLe]
  all_goals omega

theorem optIntLe_total (a b : Option Int) : optIntLe a b || optIntLe b a := by
  cases a <;> cases b <;> simp_all [optIntLe]
  all_goals omega

theorem groupLe_trans (a b c : SessionGroup) (hab : groupLe a b = true)
    (hbc : groupLe b c = true) : groupLe a c = true := by
  simp only [groupLe] at *
  cases ha : a.hasActiveSession <;> cases hb : b.hasActiveSession <;>
    cases hc : c.hasActiveSession <;> simp_all <;>
    exact optIntLe_trans _ _ _ hbc hab

theorem groupLe_total (a b : SessionGroup) : groupLe a b || groupLe b a := by
  simp only [groupLe]
  cases ha : a.hasActiveSession <;> cases hb : b.hasActiveSession <;> simp_all
  · exact Or.imp (fun h => h) (fun h => h) (Bool.or_eq_true _ _ |>.mp (optIntLe_total b.latestUpdatedAt a.latestUpdatedAt))
  · exact Or.imp (fun h => h) (fun h => h) (Bool.or_eq_true _ _ |>.mp (optIntLe_total b.latestUpdatedAt a.latestUpdatedAt))

theorem groupOrdered_of_le (a b : SessionGroup) (h : groupLe a b = true) :
    groupOrdered a b := by
  simp only [groupLe] at h
  unfold groupOrdered
  split_ifs at h with hact
  · exact Or.inr ⟨hact, h⟩
  · cases ha : a.hasActiveSession <;> cases hb : b.hasActiveSession <;> simp_all

theorem addToGroups_flatten (acc : List (String × List Session)) (s : Session) :
    ((addToGroups acc s).map Prod.snd).flatten.Perm (((acc.map Prod.snd).flatten) ++ [s]) := by
  induction acc with
  | nil => simp [addToGroups]
  | cons kv rest ih =>
      obtain ⟨k, ss⟩ := kv
      by_cases h : k = sessionKey s
      · simp only [addToGroups, if_pos h, List.map_cons, List.flatten_cons]
        rw [List.append_assoc, List.append_assoc]
        exact (List.perm_append_comm).append_left ss
      · simp only [addToGroups, if_neg h, List.map_cons, List.flatten_cons]
        rw [List.append_assoc]
        exact ih.append_left ss

theorem groupPairs_flatten (sessions : List Session) :
    ((groupPairs sessions).map Prod.snd).flatten.Perm sessions := by
  suffices h : ∀ (l : List Session) (acc),
      (((l.foldl addToGroups acc).map Prod.snd).flatten).Perm
        (((acc.map Prod.snd).flatten) ++ l) by
    simpa using h sessions []
  intro l
  induction l with
  | nil => intro acc; simp
  | cons s l ih =>
      intro acc
      refine (ih (addToGroups acc s)).trans ?_
      refine ((addToGroups_flatten acc s).append_right l).trans ?_
      simp

theorem addToGroups_key (acc : List (String × List Session)) (s : Session) :
    (∀ kv ∈ acc, ∀ x ∈ kv.2, sessionKey x = kv.1) →
    ∀ kv ∈ addToGroups acc s, ∀ x ∈ kv.2, sessionKey x = kv.1 := by
  induction acc with
  | nil =>
      intro _ kv hkv x hx
      simp only [addToGroups, List.mem_singleton] at hkv
      subst hkv
      simp only [List.mem_singleton] at hx
      subst hx
      rfl
  | cons kv₀ rest ih =>
      obtain ⟨k, ss⟩ := kv₀
      intro h kv hkv x hx
      by_cases hk : k = sessionKey s
      · simp only [addToGroups, if_pos hk, List.mem_cons] at hkv
        rcases hkv with rfl | hkv
        · simp only [List.mem_append, List.mem_singleton] at hx
          rcases hx with hx | rfl
          · exact h (k, ss) (List.mem_cons_self _ _) x hx
          · exact hk.symm
        · exact h kv (List.mem_cons_of_mem _ hkv) x hx
      · simp only [addToGroups, if_neg hk, List.mem_cons] at hkv
        rcases hkv with rfl | hkv
        · exact h (k, ss) (List.mem_cons_self _ _) x hx
        · exact ih (fun kv' hkv' => h kv' (List.mem_cons_of_mem _ hkv')) kv hkv x hx

theorem groupPairs_key (sessions : List Session) :
    ∀ kv ∈ groupPairs sessions, ∀ x ∈ kv.2, sessionKey x = kv.1 := by
  suffices h : ∀ (l : List Session) (acc),
      (∀ kv ∈ acc, ∀ x ∈ kv.2, sessionKey x = kv.1) →
      ∀ kv ∈ l.foldl addToGroups acc, ∀ x ∈ kv.2, sessionKey x = kv.1 by
    exact h sessions [] (by intro kv hkv; cases hkv)
  intro l
  induction l with
  | nil => intro acc hacc; exact hacc
  | cons s l ih => intro acc hacc; exact ih _ (addToGroups_key acc s hacc)

theorem addToGroups_keys (acc : List (String × List Session)) (s : Session) :
    (addToGroups acc s).map Prod.fst =
      if sessionKey s ∈ acc.map Prod.fst then acc.map Prod.fst
      else acc.map Prod.fst ++ [sessionKey s] := by
  induction acc with
  | nil => simp [addToGroups]
  | cons kv rest ih =>
      obtain ⟨k, ss⟩ := kv
      by_cases hk : k = sessionKey s
      · simp [addToGroups, hk]
      · simp only [addToGroups, if_neg hk, List.map_cons, ih]
        by_cases hmem : sessionKey s ∈ rest.map Prod.fst
        · rw [if_pos hmem, if_pos (by exact List.mem_cons_of_mem _ hmem)]
        · rw [if_neg hmem,
            if_neg (by simp only [List.mem_cons, not_or]; exact ⟨fun h => hk h.symm, hmem⟩)]
          simp

theorem groupPairs_keys_nodup (sessions : List Session) :
    ((groupPairs sessions).map Prod.fst).Nodup := by
  suffices h : ∀ (l : List Session) (acc),
      ((acc.map Prod.fst) : List String).Nodup →
      ((l.foldl addToGroups acc).map Prod.fst).Nodup by
    exact h sessions [] (by simp)
  intro l
  induction l with
  | nil => intro acc hacc; exact hacc
  | cons s l ih =>
      intro acc hacc
      refine ih _ ?_
      rw [addToGroups_keys]
      split_ifs with hmem
      · exact hacc
      · simp [List.nodup_append, hacc, hmem]

theorem jsMaxUpdated_step (m : Int) (s : Session) :
    jsMaxUpdated (some m) s = some (max m s.updatedAt) := by
  simp only [jsMaxUpdated]
  split_ifs with h
  · rw [max_eq_right (le_of_lt h)]
  · rw [max_eq_left (by omega)]

theorem jsMaxUpdated_comm (z : Option Int) (x y : Session) :
    jsMaxUpdated (jsMaxUpdated z x) y = jsMaxUpdated (jsMaxUpdated z y) x := by
  cases z with
  | none =>
      show jsMaxUpdated (some x.updatedAt) y = jsMaxUpdated (some y.updatedAt) x
      rw [jsMaxUpdated_step, jsMaxUpdated_step]
      exact congrArg some (max_comm x.updatedAt y.updatedAt)
  | some m =>
      rw [jsMaxUpdated_step, jsMaxUpdated_step, jsMaxUpdated_step, jsMaxUpdated_step]
      exact congrArg some (by omega : max (max m x.updatedAt) y.updatedAt = max (max m y.updatedAt) x.updatedAt)

theorem latestUpdatedAtOf_perm {l₁ l₂ : List Session} (p : l₁.Perm l₂) :
    latestUpdatedAtOf l₁ = latestUpdatedAtOf l₂ :=
  p.foldl_eq' (fun x _ y _ z => jsMaxUpdated_comm z x y) none

theorem latestUpdatedAtOf_eq_max? (l : List Session) :
    latestUpdatedAtOf l = (l.map Session.updatedAt).max? := by
  cases l with
  | nil => rfl
  | cons s l =>
      have aux : ∀ (t : List Session) (v : Int),
          t.foldl jsMaxUpdated (some v)
            = some (t.foldl (fun m x => max m x.updatedAt) v) := by
        intro t
        induction t with
        | nil => intro v; rfl
        | cons x t ih =>
            intro v
            simp only [List.foldl_cons, jsMaxUpdated_step]
            exact ih _
      simp only [latestUpdatedAtOf, List.foldl_cons, List.map_cons, List.max?_cons',
        jsMaxUpdated, List.foldl_map]
      exact aux l s.updatedAt

theorem any_perm {l₁ l₂ : List Session} (p : l₁.Perm l₂) (f : Session → Bool) :
    l₁.any f = l₂.any f := by
  cases h₁ : l₁.any f <;> cases h₂ : l₂.any f
  · rfl
  · obtain ⟨x, hx, hfx⟩ := List.any_eq_true.mp h₂
    exact absurd hfx (List.any_eq_false.mp h₁ x (p.mem_iff.mpr hx))
  · obtain ⟨x, hx, hfx⟩ := List.any_eq_true.mp h₁
    exact absurd hfx (List.any_eq_false.mp h₂ x (p.mem_iff.mp hx))
  · rfl

theorem mergeSort_map_snd_flatten_perm (pairs : List (String × List Session)) :
    ((pairs.map fun e => e.2.mergeSort sessionLe).flatten).Perm
      ((pairs.map Prod.snd).flatten) := by
  induction pairs with
  | nil => exact List.Perm.refl _
  | cons e rest ih =>
      simp only [List.map_cons, List.flatten_cons]
      exact (List.mergeSort_perm e.2 sessionLe).append ih

/-- C2: `groupSessionsByDirectory` satisfies the reference definition:
it partitions the input (the flattened group members are a permutation of the
input, every member carries its group's key, and keys are pairwise distinct),
each group's list is sorted by the three-tier rank with ties by descending
`updatedAt`, the stored `hasActiveSession` and `latestUpdatedAt` fields are
the disjunction of members' `active` flags and the maximum of members'
`updatedAt`, and the groups themselves are ordered with active-session groups
first and by descending `latestUpdatedAt` within each partition. -/
theorem groupSessionsByDirectory_spec (sessions : List Session) :
    (((groupSessionsByDirectory sessions).map SessionGroup.sessions).flatten).Perm sessions
    ∧ (∀ g ∈ groupSessionsByDirectory sessions, ∀ s ∈ g.sessions,
        sessionKey s = g.directory)
    ∧ ((groupSessionsByDirectory sessions).map SessionGroup.directory).Nodup
    ∧ (∀ g ∈ groupSessionsByDirectory sessions, g.sessions.Pairwise sessionOrdered)
    ∧ (∀ g ∈ groupSessionsByDirectory sessions,
        g.hasActiveSession = g.sessions.any (fun s => s.active)
        ∧ g.latestUpdatedAt = (g.sessions.map Session.updatedAt).max?)
    ∧ (groupSessionsByDirectory sessions).Pairwise groupOrdered := by
  have hmem : ∀ g ∈ groupSessionsByDirectory sessions,
      ∃ e ∈ groupPairs sessions, mkGroup e = g := by
    intro g hg
    rw [groupSessionsByDirectory, List.mem_mergeSort, List.mem_map] at hg
    obtain ⟨e, he, rfl⟩ := hg
    exact ⟨e, he, rfl⟩
  refine ⟨?_, ?_, ?_, ?_, ?_, ?_⟩
  · refine (List.Perm.flatten ((List.mergeSort_perm _ groupLe).map _)).trans ?_
    rw [List.map_map]
    have : (List.map (SessionGroup.sessions ∘ mkGroup) (groupPairs sessions))
        = (groupPairs sessions).map fun e => e.2.mergeSort sessionLe := rfl
    rw [this]
    exact (mergeSort_map_snd_flatten_perm _).trans (groupPairs_flatten sessions)
  · intro g hg s hs
    obtain ⟨e, he, rfl⟩ := hmem g hg
    have : s ∈ e.2 := by
      rw [mkGroup, List.mem_mergeSort] at hs
      exact hs
    exact groupPairs_key sessions e he s this
  · have hkeys := groupPairs_keys_nodup sessions
    have hperm : ((groupSessionsByDirectory sessions).map SessionGroup.directory).Perm
        ((groupPairs sessions).map Prod.fst) := by
      refine ((List.mergeSort_perm _ groupLe).map _).trans ?_
      rw [List.map_map]
      exact List.Perm.refl _
    exact hperm.nodup_iff.mpr hkeys
  · intro g hg
    obtain ⟨e, he, rfl⟩ := hmem g hg
    exact (List.sorted_mergeSort sessionLe_trans sessionLe_total e.2).imp
      fun h => sessionOrdered_of_le _ _ h
  · intro g hg
    obtain ⟨e, he, rfl⟩ := hmem g hg
    constructor
    · show (e.2.any fun s => s.active) = ((e.2.mergeSort sessionLe).any fun s => s.active)
      exact (any_perm (List.mergeSort_perm e.2 sessionLe) _).symm
    · show latestUpdatedAtOf e.2 = ((e.2.mergeSort sessionLe).map Session.updatedAt).max?
      rw [← latestUpdatedAtOf_eq_max?]
      exact latestUpdatedAtOf_perm (List.mergeSort_perm e.2 sessionLe).symm
  · exact (List.sorted_mergeSort groupLe_trans groupLe_total _).imp
      fun h => groupOrdered_of_le _ _ h

/-- A concrete session used by the C2 witness. -/
def demoSession : Session :=
  { id := "s1", active := true, updatedAt := 100, pendingRequestsCount := 2,
    worktreeBasePath := none, path := none }

/-- Witness for C2: the grouping theorem applied to the one-session list, with
the membership hypotheses discharged at the single resulting group. -/
theorem groupSessionsByDirectory_spec_witness :
    mkGroup ("Other", [demoSession]) ∈ groupSessionsByDirectory [demoSession]
    ∧ (mkGroup ("Other", [demoSession])).sessions.Pairwise sessionOrdered
    ∧ (mkGroup ("Other", [demoSession])).hasActiveSession
        = (mkGroup ("Other", [demoSession])).sessions.any (fun s => s.active) := by
  have hG : groupSessionsByDirectory [demoSession] = [mkGroup ("Other", [demoSession])] := by
    have h1 : groupPairs [demoSession] = [("Other", [demoSession])] := rfl
    rw [groupSessionsByDirectory, h1]
    simp
  have hmem : mkGroup ("Other", [demoSession]) ∈ groupSessionsByDirectory [demoSession] := by
    rw [hG]; exact List.mem_singleton.mpr rfl
  exact ⟨hmem,
    (groupSessionsByDirectory_spec [demoSession]).2.2.2.1 _ hmem,
    ((groupSessionsByDirectory_spec [demoSession]).2.2.2.2.1 _ hmem).1⟩

/-! ### Bulk delete orchestrator (useSessionActions.ts lines 127-172) -/

/-- A rejection reason as observed by the failure-message extraction of
useSessionActions.ts line 151: an optional `message` field plus the
`String(reason)` rendering. -/
structure JsError where
  message : Option String
  rendered : String
deriving DecidableEq

/-- Embedding of `(result.reason as ... | undefined)?.message || String(result.reason)`:
the descriptive `message` when present and non-empty (JavaScript `||` treats
the empty string as falsy), else the string rendering of the reason. -/
def errorText (e : JsError) : String :=
  match e.message with
  | some m => if m = "" then e.rendered else m
  | none => e.rendered

/-- The external `api.deleteSession` collaborator as a pure oracle: for each
id, either fulfilment or rejection with a reason. -/
def DeleteOutcome : Type := String → Except JsError Unit

/-- For every concurrently-issued batch, the order in which its promises
settle. The orchestrator's observable output does not depend on it (see
`allSettled`), which is exactly what claim C6 is about. -/
def SettleOrder : Type := List String → List String

/-- The aggregate result of `deleteSessions`: per-id outcomes, failures
paired with their extracted message. -/
structure BulkDeleteResult where
  succeeded : List String
  failed : List (String × String)
deriving DecidableEq

/-- Fuel-indexed rendition of the chunking loop
`for (let i = 0; i < sessionIds.length; i += limit)` with `limit = 5`
(useSessionActions.ts lines 137-139); the fuel argument only makes the
recursion structural and is irrelevant once it is at least the list length. -/
def chunksGo : Nat → List String → List (List String)
  | _, [] => []
  | 0, _ :: _ => []
  | fuel + 1, x :: xs => ((x :: xs).take 5) :: chunksGo fuel ((x :: xs).drop 5)

/-- The consecutive at-most-5 chunks the bulk delete loop iterates over. -/
def deleteChunks (ids : List String) : List (List String) :=
  chunksGo ids.length ids

theorem chunksGo_irrel :
    ∀ (fuel₁ fuel₂ : Nat) (l : List String),
      l.length ≤ fuel₁ → l.length ≤ fuel₂ → chunksGo fuel₁ l = chunksGo fuel₂ l := by
  intro fuel₁
  induction fuel₁ with
  | zero =>
      intro fuel₂ l h₁ _
      cases l with
      | nil => cases fuel₂ <;> rfl
      | cons x xs => simp at h₁
  | succ f ih =>
      intro fuel₂ l h₁ h₂
      cases l with
      | nil => cases fuel₂ <;> rfl
      | cons x xs =>
          cases fuel₂ with
          | zero => simp at h₂
          | succ g =>
              show ((x :: xs).take 5) :: chunksGo f ((x :: xs).drop 5)
                  = ((x :: xs).take 5) :: chunksGo g ((x :: xs).drop 5)
              congr 1
              apply ih
              · simp only [List.length_drop, List.length_cons]
                simp only [List.length_cons] at h₁
                omega
              · simp only [List.length_drop, List.length_cons]
                simp only [List.length_cons] at h₂
                omega

theorem deleteChunks_cons (l : List String) (h : l ≠ []) :
    deleteChunks l = l.take 5 :: deleteChunks (l.drop 5) := by
  cases l with
  | nil => exact absurd rfl h
  | cons x xs =>
      show ((x :: xs).take 5) :: chunksGo xs.length ((x :: xs).drop 5)
          = ((x :: xs).take 5) :: chunksGo ((x :: xs).drop 5).length ((x :: xs).drop 5)
      congr 1
      apply chunksGo_irrel
      · simp only [List.length_drop, List.length_cons]
        omega
      · exact Nat.le_refl _

theorem deleteChunks_bounded :
    ∀ (n : Nat) (l : List String), l.length ≤ n →
      (deleteChunks l).flatten = l
      ∧ ∀ c ∈ deleteChunks l, c ≠ [] ∧ c.length ≤ 5 := by
  intro n
  induction n with
  | zero =>
      intro l h
      have : l = [] := List.eq_nil_of_length_eq_zero (Nat.le_zero.mp h)
      subst this
      exact ⟨rfl, by intro c hc; cases hc⟩
  | succ n ih =>
      intro l h
      cases hl : l with
      | nil => exact ⟨rfl, by intro c hc; cases hc⟩
      | cons x xs =>
          subst hl
          have hne : (x :: xs) ≠ [] := by simp
          have hdrop : ((x :: xs).drop 5).length ≤ n := by
            simp only [List.length_drop, List.length_cons]
            simp only [List.length_cons] at h
            omega
          obtain ⟨ihflat, ihmem⟩ := ih _ hdrop
          rw [deleteChunks_cons _ hne]
          constructor
          · rw [List.flatten_cons, ihflat, List.take_append_drop]
          · intro c hc
            rcases List.mem_cons.mp hc with rfl | hc
            · constructor
              · simp
              · simp only [List.length_take]
                omega
            · exact ihmem c hc

/-- Model of `await Promise.allSettled(batch.map(id => api.deleteSession(id)))`:
all calls of the batch are issued together, each settles (in the order given
by the settle schedule), and the results array is indexed by input position
regardless of settlement order — which is why the schedule cannot influence
the returned list. -/
def allSettled (outcome : DeleteOutcome) ( _order : SettleOrder) (batch : List String) :
    List (Except JsError Unit) :=
  batch.map outcome

/-- The `results.forEach((result, index) => ...)` classification of
useSessionActions.ts lines 144-154: append the id to `succeeded` on
fulfilment, or `(id, message)` to `failed` on rejection. -/
def classifySettled (acc : BulkDeleteResult) (results : List (String × Except JsError Unit)) :
    BulkDeleteResult :=
  results.foldl
    (fun a p =>
      match p.2 with
      | .ok _ => { a with succeeded := a.succeeded ++ [p.1] }
      | .error e => { a with failed := a.failed ++ [(p.1, errorText e)] })
    acc

/-- The chunked loop of the bulk delete mutation (useSessionActions.ts lines
137-155). Each fold step is one loop iteration: issue the whole batch
concurrently, await `Promise.allSettled`, classify the settled results. The
first component records the batches in the order they were issued —
consecutive entries are separated by a full settlement barrier, since the
loop body awaits the batch before the next iteration starts. -/
def deleteSessionsExec (outcome : DeleteOutcome) (order : SettleOrder) (ids : List String) :
    List (List String) × BulkDeleteResult :=
  (deleteChunks ids).foldl
    (fun acc batch =>
      (acc.1 ++ [batch], classifySettled acc.2 (batch.zip (allSettled outcome order batch))))
    ([], ⟨[], []⟩)

/-- `deleteSessions` (useSessionActions.ts lines 127-172): rejects with
"API unavailable" when invoked with no API collaborator, before issuing any
call; otherwise resolves with the classified result. -/
def deleteSessions (api : Option DeleteOutcome) (order : SettleOrder) (ids : List String) :
    Except String BulkDeleteResult :=
  match api with
  | none => .error "API unavailable"
  | some outcome => .ok (deleteSessionsExec outcome order ids).2

/-- Whether the delete call for `id` fulfils. -/
def deleteOk (outcome : DeleteOutcome) (id : String) : Bool :=
  match outcome id with
  | .ok _ => true
  | .error _ => false

/-- The failed-entry produced for `id`, when its delete call rejects. -/
def deleteFailure (outcome : DeleteOutcome) (id : String) : Option (String × String) :=
  match outcome id with
  | .ok _ => none
  | .error e => some (id, errorText e)

theorem zip_map_self (outcome : DeleteOutcome) (batch : List String) :
    batch.zip (batch.map outcome) = batch.map fun id => (id, outcome id) := by
  induction batch with
  | nil => rfl
  | cons x xs ih => simp [ih]

theorem classifySettled_eq (outcome : DeleteOutcome) (batch : List String)
    (acc : BulkDeleteResult) :
    classifySettled acc (batch.map fun id => (id, outcome id))
      = ⟨acc.succeeded ++ batch.filter (deleteOk outcome),
         acc.failed ++ batch.filterMap (deleteFailure outcome)⟩ := by
  induction batch generalizing acc with
  | nil => simp [classifySettled]
  | cons x xs ih =>
      have step : ∀ (a : BulkDeleteResult) (p : String × Except JsError Unit)
          (ps : List (String × Except JsError Unit)),
          classifySettled a (p :: ps)
            = classifySettled
                (match p.2 with
                  | .ok _ => { a with succeeded := a.succeeded ++ [p.1] }
                  | .error e => { a with failed := a.failed ++ [(p.1, errorText e)] })
                ps := fun a p ps => rfl
      rw [List.map_cons, step]
      cases hx : outcome x with
      | ok u =>
          have hok : deleteOk outcome x = true := by simp [deleteOk, hx]
          have hfail : deleteFailure outcome x = none := by simp [deleteFailure, hx]
          simp only [hx]
          rw [ih]
          simp [List.filter_cons, hok, List.filterMap_cons, hfail]
      | error e =>
          have hok : deleteOk outcome x = false := by simp [deleteOk, hx]
          have hfail : deleteFailure outcome x = some (x, errorText e) := by
            simp [deleteFailure, hx]
          simp only [hx]
          rw [ih]
          simp [List.filter_cons, hok, List.filterMap_cons, hfail]

theorem deleteSessionsExec_eq (outcome : DeleteOutcome) (order : SettleOrder)
    (ids : List String) :
    deleteSessionsExec outcome order ids
      = (deleteChunks ids,
         ⟨ids.filter (deleteOk outcome), ids.filterMap (deleteFailure outcome)⟩) := by
  have hfold : ∀ (cs : List (List String)) (bs : List (List String)) (acc : BulkDeleteResult),
      cs.foldl
          (fun acc batch =>
            (acc.1 ++ [batch], classifySettled acc.2 (batch.zip (allSettled outcome order batch))))
          (bs, acc)
        = (bs ++ cs,
           ⟨acc.succeeded ++ cs.flatten.filter (deleteOk outcome),
            acc.failed ++ cs.flatten.filterMap (deleteFailure outcome)⟩) := by
    intro cs
    induction cs with
    | nil => intro bs acc; simp
    | cons c cs ih =>
        intro bs acc
        simp only [List.foldl_cons]
        rw [show (allSettled outcome order c) = c.map outcome from rfl, zip_map_self,
          classifySettled_eq]
        rw [ih]
        simp [List.filter_append, List.filterMap_append, List.flatten_cons]
  have h := hfold (deleteChunks ids) [] ⟨[], []⟩
  have hflat : (deleteChunks ids).flatten = ids :=
    (deleteChunks_bounded ids.length ids (Nat.le_refl _)).1
  rw [deleteSessionsExec, h, hflat]
  simp

/-- C3: the bulk delete issues its calls in consecutive input-order chunks of
at most 5 (exactly three batches of sizes 5, 5, 2 for 12 ids), the batches
cover the input exactly, consecutive batches are separated by a full
settlement barrier (each fold step of `deleteSessionsExec` awaits its whole
batch before the next begins), and the issued batches do not depend on the
outcomes or settle order of any call — a failure never prevents sibling or
subsequent calls from being issued. -/
theorem deleteSessions_chunking (outcome : DeleteOutcome) (order : SettleOrder)
    (ids : List String) :
    ((deleteSessionsExec outcome order ids).1).flatten = ids
    ∧ (∀ c ∈ (deleteSessionsExec outcome order ids).1, c ≠ [] ∧ c.length ≤ 5)
    ∧ (ids.length = 12 →
        (deleteSessionsExec outcome order ids).1.map List.length = [5, 5, 2])
    ∧ (∀ (outcome' : DeleteOutcome) (order' : SettleOrder),
        (deleteSessionsExec outcome' order' ids).1 = (deleteSessionsExec outcome order ids).1) := by
  have hb := deleteChunks_bounded ids.length ids (Nat.le_refl _)
  refine ⟨?_, ?_, ?_, ?_⟩
  · rw [deleteSessionsExec_eq]; exact hb.1
  · rw [deleteSessionsExec_eq]; exact hb.2
  · intro h12
    rw [deleteSessionsExec_eq]
    have h₁ : ids ≠ [] := by intro h; rw [h] at h12; simp at h12
    rw [deleteChunks_cons ids h₁]
    have hd₁ : (ids.drop 5).length = 7 := by simp [List.length_drop, h12]
    have h₂ : ids.drop 5 ≠ [] := by
      intro h; rw [h] at hd₁; simp at hd₁
    rw [deleteChunks_cons _ h₂]
    have hd₂ : ((ids.drop 5).drop 5).length = 2 := by simp [List.length_drop, h12]
    have h₃ : (ids.drop 5).drop 5 ≠ [] := by
      intro h; rw [h] at hd₂; simp at hd₂
    rw [deleteChunks_cons _ h₃]
    have hd₃ : (((ids.drop 5).drop 5).drop 5).length = 0 := by simp [List.length_drop, h12]
    have h₄ : ((ids.drop 5).drop 5).drop 5 = [] := List.eq_nil_of_length_eq_zero hd₃
    rw [h₄]
    simp only [deleteChunks]
    simp [List.length_take, h12, hd₁, hd₂]
    rfl
  · intro outcome' order'
    rw [deleteSessionsExec_eq, deleteSessionsExec_eq]

/-- Twelve ids for the chunking witness. -/
def demoIds12 : List String :=
  ["a", "b", "c", "d", "e", "f", "g", "h", "i", "j", "k", "l"]

/-- An oracle on which every delete call fulfils. -/
def allOk : DeleteOutcome := fun _ => .ok ()

/-- The settle schedule in which calls settle in the order they were issued. -/
def inputOrder : SettleOrder := fun batch => batch

/-- Witness for the chunking theorem at 12 concrete ids, with the length-12
hypothesis and the batch-membership hypothesis discharged concretely. -/
theorem deleteSessions_chunking_witness :
    demoIds12.length = 12
    ∧ (deleteSessionsExec allOk inputOrder demoIds12).1.map List.length = [5, 5, 2]
    ∧ ["a", "b", "c", "d", "e"] ∈ (deleteSessionsExec allOk inputOrder demoIds12).1
    ∧ ((["a", "b", "c", "d", "e"] : List String) ≠ []
        ∧ (["a", "b", "c", "d", "e"] : List String).length ≤ 5) := by
  have h := deleteSessions_chunking allOk inputOrder demoIds12
  have hlen : demoIds12.length = 12 := rfl
  have hmem : ["a", "b", "c", "d", "e"] ∈ (deleteSessionsExec allOk inputOrder demoIds12).1 := by
    rw [deleteSessionsExec_eq]
    decide
  exact ⟨hlen, h.2.2.1 hlen, hmem, h.2.1 _ hmem⟩

/-- An oracle on which every delete call rejects, with a message naming the id. -/
def allFail : DeleteOutcome := fun id => .error ⟨some ("failed " ++ id), "Error"⟩

/-- The settle schedule in which each batch settles in reverse issue order. -/
def reversedOrder : SettleOrder := fun batch => batch.reverse

/-- C6 counterexample: take ids `["a","b"]` (one chunk) where both calls fail
and the completion order is `["b","a"]` — b settles first. The claim predicts
`failed` in completion order, `[("b",...), ("a",...)]`; but `Promise.allSettled`
indexes its results by input position, so the code appends in input order and
produces `[("a",...), ("b",...)]`. -/
theorem deleteSessions_completion_order_counterexample :
    reversedOrder ["a", "b"] = ["b", "a"]
    ∧ (deleteSessionsExec allFail reversedOrder ["a", "b"]).2.failed
        = [("a", "failed a"), ("b", "failed b")]
    ∧ (deleteSessionsExec allFail reversedOrder ["a", "b"]).2.failed
        ≠ [("b", "failed b"), ("a", "failed a")] := by
  refine ⟨rfl, by decide, by decide⟩

/-- C6 (amended): the order of entries within `succeeded` and within `failed`
follows the input order of the ids — chunks are processed in input order and
within each chunk `Promise.allSettled` reports results by input index — and
is therefore independent of the completion order of the calls. -/
theorem deleteSessions_order_input_order (outcome : DeleteOutcome)
    (order order' : SettleOrder) (ids : List String) :
    (deleteSessionsExec outcome order ids).2.succeeded = ids.filter (deleteOk outcome)
    ∧ (deleteSessionsExec outcome order ids).2.failed = ids.filterMap (deleteFailure outcome)
    ∧ deleteSessionsExec outcome order ids = deleteSessionsExec outcome order' ids := by
  rw [deleteSessionsExec_eq, deleteSessionsExec_eq]
  exact ⟨rfl, rfl, rfl⟩

theorem classify_partition (outcome : DeleteOutcome) (ids : List String) :
    (ids.filter (deleteOk outcome)).length
      + (ids.filterMap (deleteFailure outcome)).length = ids.length := by
  induction ids with
  | nil => rfl
  | cons x xs ih =>
      cases hx : outcome x with
      | ok u =>
          have hok : deleteOk outcome x = true := by simp [deleteOk, hx]
          have hfail : deleteFailure outcome x = none := by simp [deleteFailure, hx]
          simp [List.filter_cons, hok, List.filterMap_cons, hfail]
          omega
      | error e =>
          have hok : deleteOk outcome x = false := by simp [deleteOk, hx]
          have hfail : deleteFailure outcome x = some (x, errorText e) := by
            simp [deleteFailure, hx]
          simp [List.filter_cons, hok, List.filterMap_cons, hfail]
          omega

/-- C8: `deleteSessions` rejects — producing no result — exactly when invoked
with no API collaborator; otherwise it always resolves, classifying every id
into `succeeded` (its call fulfilled) or `failed` (its call rejected, the
message being the failure's descriptive text when available — present and
non-empty, matching the JavaScript `||` fallback — and otherwise the string
rendering of the reason, see `errorText`); an individual failure never makes
the orchestrator itself throw, and the two buckets exhaust the ids. -/
theorem deleteSessions_failure_semantics (order : SettleOrder) (ids : List String) :
    deleteSessions none order ids = .error "API unavailable"
    ∧ (∀ outcome : DeleteOutcome,
        deleteSessions (some outcome) order ids
          = .ok ⟨ids.filter (deleteOk outcome), ids.filterMap (deleteFailure outcome)⟩)
    ∧ (∀ outcome : DeleteOutcome,
        (ids.filter (deleteOk outcome)).length
          + (ids.filterMap (deleteFailure outcome)).length = ids.length) := by
  refine ⟨rfl, fun outcome => ?_, fun outcome => classify_partition outcome ids⟩
  show Except.ok (deleteSessionsExec outcome order ids).2 = _
  rw [deleteSessionsExec_eq]

/-! ### Selection controller (SessionList.tsx lines 441-596) -/

/-- The three toast outcomes of `handleConfirmBulkDelete`, each with the
count interpolated into its body (succeeded count for success, failed count
otherwise). -/
inductive BulkDeleteToast where
  | success (n : Nat)
  | allFailed (n : Nat)
  | someFailed (n : Nat)
deriving DecidableEq

/-- The post-await portion of `handleConfirmBulkDelete` (SessionList.tsx
lines 542-566): branch on `failed.length === 0`, then `succeeded.length === 0`;
dispatch the corresponding reducer actions and emit the toast. -/
def applyBulkDeleteResult (s : SelectionState) (r : BulkDeleteResult) :
    SelectionState × BulkDeleteToast :=
  if r.failed.length = 0 then
    (selectionReducer s .exitSelectionMode, .success r.succeeded.length)
  else if r.succeeded.length = 0 then
    (s, .allFailed r.failed.length)
  else
    (selectionReducer (selectionReducer s .clearSelection)
        (.selectAll (r.failed.map Prod.fst)),
     .someFailed r.failed.length)

/-- A concrete enumeration of a set of ids, standing for `Array.from(set)`;
JavaScript sets enumerate in insertion order, which is not tracked by
`Finset`, but no property proved here depends on the enumeration order. -/
def idList (s : Finset String) : List String :=
  s.sort (fun a b => a ≤ b)

/-- `handleConfirmBulkDelete` (SessionList.tsx lines 538-569): read the
selected ids, await `deleteSessions`, then apply the branch above. -/
def handleConfirmBulkDelete (api : Option DeleteOutcome) (order : SettleOrder)
    (s : SelectionState) : Except String (SelectionState × BulkDeleteToast) :=
  (deleteSessions api order (idList s.selectedIds)).map (applyBulkDeleteResult s)

/-- C1: starting from selection mode, the controller applies exactly one of
three post-conditions depending on the result: all failed and none succeeded
leaves the state unchanged with selection mode still on; all succeeded and
none failed clears the selection and exits selection mode; a mixed outcome
replaces the selection with exactly the failed ids and keeps selection mode
on. -/
theorem confirmBulkDelete_postconditions (s : SelectionState) (r : BulkDeleteResult)
    (hmode : s.selectionMode = true) :
    (r.succeeded = [] ∧ r.failed ≠ [] →
        (applyBulkDeleteResult s r).1 = s ∧ (applyBulkDeleteResult s r).1.selectionMode = true)
    ∧ (r.failed = [] ∧ r.succeeded ≠ [] →
        (applyBulkDeleteResult s r).1 = { selectionMode := false, selectedIds := ∅ })
    ∧ (r.succeeded ≠ [] ∧ r.failed ≠ [] →
        (applyBulkDeleteResult s r).1.selectionMode = true
        ∧ (applyBulkDeleteResult s r).1.selectedIds = (r.failed.map Prod.fst).toFinset) := by
  refine ⟨?_, ?_, ?_⟩
  · rintro ⟨hsucc, hfail⟩
    have hfl : r.failed.length ≠ 0 := fun h => hfail (List.eq_nil_of_length_eq_zero h)
    have hsl : r.succeeded.length = 0 := by rw [hsucc]; rfl
    rw [applyBulkDeleteResult, if_neg hfl, if_pos hsl]
    exact ⟨rfl, hmode⟩
  · rintro ⟨hfail, _⟩
    have hfl : r.failed.length = 0 := by rw [hfail]; rfl
    rw [applyBulkDeleteResult, if_pos hfl]
    rfl
  · rintro ⟨hsucc, hfail⟩
    have hfl : r.failed.length ≠ 0 := fun h => hfail (List.eq_nil_of_length_eq_zero h)
    have hsl : r.succeeded.length ≠ 0 := fun h => hsucc (List.eq_nil_of_length_eq_zero h)
    rw [applyBulkDeleteResult, if_neg hfl, if_neg hsl]
    exact ⟨hmode, rfl⟩

/-- Witness for the post-condition theorem at a concrete mixed outcome:
selection `{a, b}`, `a` succeeded, `b` failed, so the selection becomes
exactly `{b}` with selection mode still on. -/
theorem confirmBulkDelete_postconditions_witness :
    (({ selectionMode := true, selectedIds := {"a", "b"} } : SelectionState).selectionMode = true)
    ∧ ((["a"] : List String) ≠ [] ∧ ([("b", "boom")] : List (String × String)) ≠ [])
    ∧ (applyBulkDeleteResult { selectionMode := true, selectedIds := {"a", "b"} }
        { succeeded := ["a"], failed := [("b", "boom")] }).1.selectedIds
        = ((([("b", "boom")] : List (String × String)).map Prod.fst).toFinset) := by
  refine ⟨rfl, ⟨by decide, by decide⟩, ?_⟩
  exact ((confirmBulkDelete_postconditions
      { selectionMode := true, selectedIds := {"a", "b"} }
      { succeeded := ["a"], failed := [("b", "boom")] } rfl).2.2
    ⟨by decide, by decide⟩).2

/-- C9: with an empty selection, the bulk delete of the empty id sequence
issues no batches at all, resolves with empty `succeeded` and `failed`, and
because `failed` is empty the controller takes the all-success path: selection
mode is exited and the success toast carries count 0. -/
theorem confirmBulkDelete_empty_selection (outcome : DeleteOutcome) (order : SettleOrder) :
    (deleteSessionsExec outcome order ([] : List String)).1 = []
    ∧ deleteSessions (some outcome) order [] = .ok { succeeded := [], failed := [] }
    ∧ handleConfirmBulkDelete (some outcome) order
          { selectionMode := true, selectedIds := ∅ }
        = .ok ({ selectionMode := false, selectedIds := ∅ }, .success 0) := by
  refine ⟨rfl, rfl, ?_⟩
  rw [handleConfirmBulkDelete, show idList (∅ : Finset String) = [] from Finset.sort_empty _]
  rfl

/-- `selectableSessionIds` (SessionList.tsx lines 478-481): the ids of the
non-active sessions in the current collection. -/
def selectableSessionIds (sessions : List Session) : List String :=
  (sessions.filter fun s => !s.active).map Session.id

/-- The ids of the selection that are still selectable: the source's
`validSelectedIds = Array.from(selectionState.selectedIds).filter(id => selectableIdSet.has(id))`
(SessionList.tsx line 589). -/
def validSelectedIds (sessions : List Session) (s : SelectionState) : List String :=
  (idList s.selectedIds).filter fun id =>
    decide (id ∈ (selectableSessionIds sessions).toFinset)

/-- The reconciliation effect of SessionList.tsx lines 586-596: when the
session collection changes, drop every selected id that is no longer
selectable — skip when the selection is empty or nothing changed; otherwise
dispatch `ClearSelection` and, when some valid ids remain, `SelectAll` of
them. -/
def clearInvalidSelections (sessions : List Session) (s : SelectionState) : SelectionState :=
  if s.selectedIds.card = 0 then s
  else if (validSelectedIds sessions s).length = s.selectedIds.card then s
  else if 0 < (validSelectedIds sessions s).length then
    selectionReducer (selectionReducer s .clearSelection)
      (.selectAll (validSelectedIds sessions s))
  else selectionReducer s .clearSelection

theorem validSelectedIds_toFinset (sessions : List Session) (s : SelectionState) :
    (validSelectedIds sessions s).toFinset
      = s.selectedIds ∩ (selectableSessionIds sessions).toFinset := by
  ext a
  simp [validSelectedIds, List.mem_filter, idList, Finset.mem_sort, Finset.mem_inter]

theorem clearInvalidSelections_eq (sessions : List Session) (s : SelectionState) :
    (clearInvalidSelections sessions s).selectedIds
      = s.selectedIds ∩ (selectableSessionIds sessions).toFinset
    ∧ (clearInvalidSelections sessions s).selectionMode = s.selectionMode := by
  unfold clearInvalidSelections
  by_cases h0 : s.selectedIds.card = 0
  · rw [if_pos h0]
    have hsel : s.selectedIds = ∅ := Finset.card_eq_zero.mp h0
    rw [hsel]
    exact ⟨(Finset.empty_inter _).symm, rfl⟩
  · rw [if_neg h0]
    by_cases hfull : (validSelectedIds sessions s).length = s.selectedIds.card
    · rw [if_pos hfull]
      have hall : ∀ a ∈ idList s.selectedIds,
          decide (a ∈ (selectableSessionIds sessions).toFinset) = true := by
        apply List.filter_length_eq_length.mp
        rw [show (idList s.selectedIds).length = s.selectedIds.card from Finset.length_sort _]
        exact hfull
      have hsub : s.selectedIds ⊆ (selectableSessionIds sessions).toFinset := by
        intro a ha
        have := hall a (by rw [idList, Finset.mem_sort]; exact ha)
        simpa using this
      exact ⟨(Finset.inter_eq_left.mpr hsub).symm, rfl⟩
    · rw [if_neg hfull]
      by_cases hpos : 0 < (validSelectedIds sessions s).length
      · rw [if_pos hpos]
        exact ⟨validSelectedIds_toFinset sessions s, rfl⟩
      · rw [if_neg hpos]
        have hnil : validSelectedIds sessions s = [] :=
          List.eq_nil_of_length_eq_zero (Nat.eq_zero_of_not_pos hpos)
        have hfin := validSelectedIds_toFinset sessions s
        rw [hnil] at hfin
        constructor
        · show (∅ : Finset String) = _
          simpa using hfin
        · rfl

/-- A selectable (non-active) demo session with id x. -/
def demoSessionX : Session :=
  { id := "x", active := false, updatedAt := 0, pendingRequestsCount := 0,
    worktreeBasePath := none, path := none }

/-- An active demo session with id y. -/
def demoSessionY : Session :=
  { id := "y", active := true, updatedAt := 0, pendingRequestsCount := 0,
    worktreeBasePath := none, path := none }

/-- C7: whenever the session collection changes, the reconciliation keeps
exactly the selected ids that are still selectable (non-active sessions
present in the new collection), so afterwards the selection is a subset of
the selectable ids; the selection mode is untouched; and on the spec's
example — selection `{x, y}` where `y` has become active — exactly `{x}`
remains. -/
theorem clearInvalidSelections_spec (sessions : List Session) (s : SelectionState) :
    (clearInvalidSelections sessions s).selectedIds
      = s.selectedIds ∩ (selectableSessionIds sessions).toFinset
    ∧ (clearInvalidSelections sessions s).selectedIds ⊆ (selectableSessionIds sessions).toFinset
    ∧ (clearInvalidSelections sessions s).selectionMode = s.selectionMode
    ∧ (clearInvalidSelections [demoSessionX, demoSessionY]
        { selectionMode := true, selectedIds := {"x", "y"} }).selectedIds = {"x"} := by
  obtain ⟨heq, hmode⟩ := clearInvalidSelections_eq sessions s
  refine ⟨heq, ?_, hmode, ?_⟩
  · rw [heq]; exact Finset.inter_subset_right
  · rw [(clearInvalidSelections_eq [demoSessionX, demoSessionY]
      { selectionMode := true, selectedIds := {"x", "y"} }).1]
    decide

/-! ### Permission mode validation (useSessionActions.ts lines 61-72) -/

/-- Modelled from the spec: the flavor-recognition predicate `isKnownFlavor`
imported from lib/agentFlavorUtils, whose source is not part of src/. Per the
data model (spec section 3) `flavor` is optional, so an absent flavor is not
a recognized one; recognition of a present flavor is membership in an
abstract list of recognized flavors. -/
def isKnownFlavor (known : List String) : Option String → Bool
  | none => false
  | some flavor => known.contains flavor

/-- Embedding of the `setPermissionMode` mutation fn (useSessionActions.ts
lines 61-72). The FlavorPolicy predicate `isPermissionModeAllowedForFlavor`
is an external collaborator (spec section 6), abstracted as `allowed`. An
`.ok` value records the API call `(sessionId, mode)` that was issued; an
`.error` result means no API call was made, since the function throws before
reaching the call. -/
def setPermissionMode (api : Option Unit) (sessionId : Option String)
    (known : List String) (allowed : String → Option String → Bool)
    (agentFlavor : Option String) (mode : String) : Except String (String × String) :=
  match api, sessionId with
  | some _, some sid =>
      if isKnownFlavor known agentFlavor && !(allowed mode agentFlavor) then
        .error "Invalid permission mode for session flavor"
      else
        .ok (sid, mode)
  | _, _ => .error "Session unavailable"

/-- C10: with api and session id available, `setPermissionMode` rejects
locally with "Invalid permission mode for session flavor" — issuing no API
call — exactly when the flavor is recognized and the policy predicate
disallows the requested mode; an absent or unrecognized flavor means the mode
is sent to the API with no local validation at all (the policy predicate is
arbitrary in the second and third conjuncts). -/
theorem setPermissionMode_flavor_validation (sid : String) (known : List String)
    (allowed : String → Option String → Bool) (agentFlavor : Option String) (mode : String) :
    (setPermissionMode (some ()) (some sid) known allowed agentFlavor mode
        = .error "Invalid permission mode for session flavor"
      ↔ isKnownFlavor known agentFlavor = true ∧ allowed mode agentFlavor = false)
    ∧ (isKnownFlavor known agentFlavor = false →
        setPermissionMode (some ()) (some sid) known allowed agentFlavor mode
          = .ok (sid, mode))
    ∧ (agentFlavor = none →
        setPermissionMode (some ()) (some sid) known allowed agentFlavor mode
          = .ok (sid, mode)) := by
  refine ⟨?_, ?_, ?_⟩
  · show (if isKnownFlavor known agentFlavor && !(allowed mode agentFlavor) then _ else _) = _ ↔ _
    by_cases h : isKnownFlavor known agentFlavor && !(allowed mode agentFlavor)
    · rw [if_pos h]
      simp only [Bool.and_eq_true, Bool.not_eq_true'] at h
      exact ⟨fun _ => h, fun _ => rfl⟩
    · rw [if_neg h]
      simp only [Bool.and_eq_true, Bool.not_eq_true'] at h
      constructor
      · intro hcontra; cases hcontra
      · intro hk; exact absurd hk h
  · intro hk
    show (if isKnownFlavor known agentFlavor && !(allowed mode agentFlavor) then _ else _) = _
    rw [hk]
    rfl
  · intro hnone
    subst hnone
    rfl

/-- Witness for the permission-mode theorem: with flavor absent the call goes
straight to the API even under an always-deny policy. -/
theorem setPermissionMode_flavor_validation_witness :
    isKnownFlavor ["claude"] none = false
    ∧ setPermissionMode (some ()) (some "s1") ["claude"] (fun _ _ => false) none "plan"
        = .ok ("s1", "plan") :=
  ⟨rfl,
   (setPermissionMode_flavor_validation "s1" ["claude"] (fun _ _ => false) none "plan").2.1 rfl⟩

end Hapi
